import Mathlib

/-!
Verification development for the maya-sniffer repository (`maya_sniffer.py`).

The two algorithmic subsystems are embedded shallowly:

* the squarified treemap layout engine (`layoutrow`, `layoutcol`, `layout`,
  `leftover*`, `worst_ratio` (here `worstAspect`), `squarify`,
  `pad_rectangle`, `padded_squarify`, `normalize_sizes`), with Python floats
  modelled as exact rationals;
* the single-pass scene-statistics parser (`Parser`, `on_create`,
  `on_setattr`, `Parser.parse`), with Python strings modelled as `List Char`
  and Python dicts (unique keys, insertion order) as association lists.

Fallible Python code (unguarded `list.index` / subscript raising
`ValueError` / `IndexError`) is modelled with `Except PyError`.
-/

/-- A rectangle as produced by the layout engine: Python dicts
`{"x": .., "y": .., "dx": .., "dy": ..}` with origin `x, y` and extents
`dx, dy`. -/
structure Rect where
  x : ℚ
  y : ℚ
  dx : ℚ
  dy : ℚ
deriving DecidableEq

/-- Area of a rectangle. -/
def Rect.area (r : Rect) : ℚ := r.dx * r.dy

/-- Two axis-aligned rectangles do not overlap: they are separated along
the x axis or along the y axis (their open interiors are disjoint). -/
def Rect.Disjoint (a b : Rect) : Prop :=
  a.x + a.dx ≤ b.x ∨ b.x + b.dx ≤ a.x ∨ a.y + a.dy ≤ b.y ∨ b.y + b.dy ≤ a.y

/-- `r` lies inside the bounding rectangle with origin `(x, y)` and extents
`(dx, dy)`. -/
def Rect.Contained (r : Rect) (x y dx dy : ℚ) : Prop :=
  x ≤ r.x ∧ y ≤ r.y ∧ r.x + r.dx ≤ x + dx ∧ r.y + r.dy ≤ y + dy

/-- Python `max` over a list (`max(xs)`); on the empty list (where Python
raises and which never occurs at the call sites embedded here) it returns 0. -/
def pyMax : List ℚ → ℚ
  | [] => 0
  | a :: rest => rest.foldl max a

/-- The loop body of `layoutrow`: each size yields a rectangle of fixed
width `w`, stacked downwards starting at vertical position `y`
(`y += size / width` in the source). -/
def rowGo (x w : ℚ) : List ℚ → ℚ → List Rect
  | [], _ => []
  | s :: rest, y => ⟨x, y, w, s / w⟩ :: rowGo x w rest (y + s / w)

/-- Embeds `layoutrow(sizes, x, y, dx, dy)`: the strip has fixed width
`covered_area / dy` and the rectangles are stacked top-to-bottom. -/
def layoutrow (sizes : List ℚ) (x y dx dy : ℚ) : List Rect :=
  rowGo x (sizes.sum / dy) sizes y

/-- The loop body of `layoutcol`: each size yields a rectangle of fixed
height `h`, placed rightwards starting at horizontal position `x`. -/
def colGo (y h : ℚ) : List ℚ → ℚ → List Rect
  | [], _ => []
  | s :: rest, x => ⟨x, y, s / h, h⟩ :: colGo y h rest (x + s / h)

/-- Embeds `layoutcol(sizes, x, y, dx, dy)`: the strip has fixed height
`covered_area / dx` and the rectangles are placed left-to-right. -/
def layoutcol (sizes : List ℚ) (x y dx dy : ℚ) : List Rect :=
  colGo y (sizes.sum / dx) sizes x

/-- Embeds `layout`: `layoutrow` when `dx >= dy`, else `layoutcol`. -/
def layout (sizes : List ℚ) (x y dx dy : ℚ) : List Rect :=
  if dy ≤ dx then layoutrow sizes x y dx dy else layoutcol sizes x y dx dy

/-- Embeds `leftoverrow`: the frame remaining after a `layoutrow` strip of
width `covered_area / dy` is consumed from the left edge. -/
def leftoverrow (sizes : List ℚ) (x y dx dy : ℚ) : Rect :=
  ⟨x + sizes.sum / dy, y, dx - sizes.sum / dy, dy⟩

/-- Embeds `leftovercol`: the frame remaining after a `layoutcol` strip of
height `covered_area / dx` is consumed from the top edge. -/
def leftovercol (sizes : List ℚ) (x y dx dy : ℚ) : Rect :=
  ⟨x, y + sizes.sum / dx, dx, dy - sizes.sum / dx⟩

/-- Embeds `leftover`: `leftoverrow` when `dx >= dy`, else `leftovercol`. -/
def leftover (sizes : List ℚ) (x y dx dy : ℚ) : Rect :=
  if dy ≤ dx then leftoverrow sizes x y dx dy else leftovercol sizes x y dx dy

/-- Embeds the source's `worst_ratio`: the largest deviation from a square,
`max(max(rect.dx / rect.dy, rect.dy / rect.dx) for rect in layout(...))`. -/
def worstAspect (sizes : List ℚ) (x y dx dy : ℚ) : ℚ :=
  pyMax ((layout sizes x y dx dy).map (fun r => max (r.dx / r.dy) (r.dy / r.dx)))

/-- The `while` loop of `squarify` that finds the split position: starting
from `i`, keep growing the row while `i < len(sizes)` and
`worst_ratio(sizes[:i]) >= worst_ratio(sizes[:i+1])`.  The fuel argument
bounds the number of iterations; `sizes.length` iterations always suffice
because `i` only grows and the loop stops at `i = sizes.length`. -/
def splitGo (sizes : List ℚ) (x y dx dy : ℚ) : ℕ → ℕ → ℕ
  | 0, i => i
  | fuel + 1, i =>
    if i < sizes.length ∧
        worstAspect (sizes.take (i + 1)) x y dx dy ≤
          worstAspect (sizes.take i) x y dx dy then
      splitGo sizes x y dx dy fuel (i + 1)
    else i

/-- The value of `i` when the `while` loop of `squarify` exits (started at
`i = 1`). -/
def splitIdx (sizes : List ℚ) (x y dx dy : ℚ) : ℕ :=
  splitGo sizes x y dx dy sizes.length 1

/-- The recursion of `squarify`, with an explicit fuel that bounds the
recursion depth.  The source recursion consumes at least one size per call
(`i >= 1`), so `sizes.length` fuel always suffices; `squarify_eq` below
proves that with that fuel this function satisfies exactly the source's
recursion equation. -/
def squarifyGo : ℕ → List ℚ → ℚ → ℚ → ℚ → ℚ → List Rect
  | _, [], _, _, _, _ => []
  | _, [s], x, y, dx, dy => layout [s] x y dx dy
  | 0, _ :: _ :: _, _, _, _, _ => []
  | fuel + 1, s1 :: s2 :: rest, x, y, dx, dy =>
    let sizes := s1 :: s2 :: rest
    let i := splitIdx sizes x y dx dy
    let lo := leftover (sizes.take i) x y dx dy
    layout (sizes.take i) x y dx dy ++
      squarifyGo fuel (sizes.drop i) lo.x lo.y lo.dx lo.dy

/-- Embeds `squarify(sizes, x, y, dx, dy)` (the `map(float, sizes)` step is
the identity in the rational model). -/
def squarify (sizes : List ℚ) (x y dx dy : ℚ) : List Rect :=
  squarifyGo sizes.length sizes x y dx dy

/-- Embeds `pad_rectangle`: inset by 1 on each side in any dimension whose
extent exceeds 2. -/
def pad_rectangle (r : Rect) : Rect :=
  let r1 := if 2 < r.dx then { r with x := r.x + 1, dx := r.dx - 2 } else r
  if 2 < r1.dy then { r1 with y := r1.y + 1, dy := r1.dy - 2 } else r1

/-- Embeds `padded_squarify`. -/
def padded_squarify (sizes : List ℚ) (x y dx dy : ℚ) : List Rect :=
  (squarify sizes x y dx dy).map pad_rectangle

/-- Embeds `normalize_sizes(sizes, dx, dy, minimum_size)` as a function of
its inputs: every size below `max(sizes) * minimum_size` is floored to that
value, then the floored sizes are rescaled by `total_area / total_size`. -/
def normalize_sizes (sizes : List ℚ) (dx dy minimum_size : ℚ) : List ℚ :=
  let minsize := pyMax sizes * minimum_size
  let floored := sizes.map (fun s => max s minsize)
  floored.map (fun s => s * (dx * dy) / floored.sum)

/-- The state of the caller-supplied `sizes` list after `normalize_sizes`
returns: the source's flooring loop `sizes[index] = max([size, minsize])`
writes back into the caller's list in place, while the later rescaling
rebinds a fresh list.  `dx`/`dy` do not influence the mutation. -/
def normalize_sizes_arg_after (sizes : List ℚ) (minimum_size : ℚ) : List ℚ :=
  sizes.map (fun s => max s (pyMax sizes * minimum_size))

/-- Python `str.isspace` on a single character, as used by `str.strip()`
and `str.split()` with no arguments. -/
def pyIsSpace (c : Char) : Bool :=
  c == ' ' || c == '\t' || c == '\n' || c == '\r' || c == '\x0B' || c == '\x0C'

/-- Remove trailing characters satisfying `p` (Python `rstrip`). -/
def rstripWith (p : Char → Bool) (s : List Char) : List Char :=
  (s.reverse.dropWhile p).reverse

/-- Python `line.strip()`: remove leading and trailing whitespace. -/
def pyStrip (s : List Char) : List Char :=
  rstripWith pyIsSpace (s.dropWhile pyIsSpace)

/-- The character set of the source's `rstrip(" ;\n")`. -/
def trimChar (c : Char) : Bool :=
  c == ' ' || c == ';' || c == '\n'

/-- The source's per-line trimming `line.strip().rstrip(" ;\n")`. -/
def pyTrim (s : List Char) : List Char :=
  rstripWith trimChar (pyStrip s)

/-- Worker for Python `str.split()` (no separator): accumulate the current
token in reverse in `acc`, emitting it at each whitespace run or at the
end. -/
def pySplitAux : List Char → List Char → List (List Char)
  | [], acc => if acc.isEmpty then [] else [acc.reverse]
  | c :: rest, acc =>
    if pyIsSpace c then
      if acc.isEmpty then pySplitAux rest [] else acc.reverse :: pySplitAux rest []
    else pySplitAux rest (c :: acc)

/-- Python `line.split()`: tokens separated by whitespace runs, with no
empty tokens. -/
def pySplit (s : List Char) : List (List Char) :=
  pySplitAux s []

/-- Python `list.index`, returning `none` where Python raises
`ValueError`. -/
def pyIndex (a : List Char) : List (List Char) → Option ℕ
  | [] => none
  | b :: rest => if b = a then some 0 else (pyIndex a rest).map (· + 1)

/-- The `"select"` terminator marker. -/
def selectMarker : List Char := "select".toList

/-- The `"connectAttr"` terminator marker. -/
def connectMarker : List Char := "connectAttr".toList

/-- The `"createNode"` creation marker. -/
def createMarker : List Char := "createNode".toList

/-- The `"setAttr"` attribute marker. -/
def setattrMarker : List Char := "setAttr".toList

/-- The `"-n"` name-flag token of a `createNode` statement. -/
def nFlag : List Char := "-n".toList

/-- Python `line.startswith(pat)`. -/
def startswith (pat s : List Char) : Bool :=
  pat.isPrefixOf s

/-- Per-object statistics: the value dicts
`{"nodeType": .., "lines": .., "characters": ..}` of `Parser.result["nodes"]`.
`nodeType` is an `Option` because `self._current_node_type` may still be
`None` when the entry is created. -/
structure NodeStats where
  nodeType : Option (List Char)
  lines : ℕ
  characters : ℕ
deriving DecidableEq

/-- The `result["nodes"]` dict: an insertion-ordered association list with
unique keys.  The key is `Option (List Char)` because the source can use
`self._current_node = None` as a dict key. -/
abbrev NodesMap := List (Option (List Char) × NodeStats)

/-- Dict lookup (`key in nodes` / `nodes[key]`). -/
def findKey : NodesMap → Option (List Char) → Option NodeStats
  | [], _ => none
  | (k, v) :: rest, key => if k = key then some v else findKey rest key

/-- Dict update of an existing key: replace the (first, and by construction
only) entry with key `key` by applying `f` to its value. -/
def updKey (f : NodeStats → NodeStats) : NodesMap → Option (List Char) → NodesMap
  | [], _ => []
  | (k, v) :: rest, key =>
    if k = key then (k, f v) :: rest else (k, v) :: updKey f rest key

/-- The parser's mutable fields: `self._current_node`,
`self._current_node_type` and `self.result["nodes"]` (the remaining
`result` entries are derived once per `parse` call and carried in
`ParseResult` below). -/
structure Parser where
  current_node : Option (List Char)
  current_node_type : Option (List Char)
  nodes : NodesMap
deriving DecidableEq

/-- `Parser.__init__`: both transient fields `None`, empty result. -/
def Parser.init : Parser := ⟨none, none, []⟩

/-- The unguarded Python exceptions `on_create` can raise: `ValueError`
from `comp.index("-n")` and `IndexError` from `comp[1]` / `comp[index+1]`. -/
inductive PyError where
  | valueError
  | indexError
deriving DecidableEq

/-- Embeds `Parser.on_create(line)`: tokenize, find the `-n` flag
(`ValueError` if absent), read the type token `comp[1]` and the name token
`comp[index + 1]` (`IndexError` if missing), strip quote characters from
the name, and set the current node/type. -/
def on_create (line : List Char) (p : Parser) : Except PyError Parser :=
  let comp := pySplit line
  match pyIndex nFlag comp with
  | none => .error .valueError
  | some index =>
    match comp[1]? with
    | none => .error .indexError
    | some node_type =>
      match comp[index + 1]? with
      | none => .error .indexError
      | some name =>
        .ok { p with
                current_node := some (name.filter (fun c => c != '"')),
                current_node_type := some node_type }

/-- Embeds `Parser.on_setattr(line)`: create the entry for
`self._current_node` on first attribution (seeded with the current type and
zero counts), then increment its line count by 1 and its character count by
`len(line)`. -/
def on_setattr (line : List Char) (p : Parser) : Parser :=
  let nodes :=
    if (findKey p.nodes p.current_node).isNone then
      p.nodes ++ [(p.current_node, ⟨p.current_node_type, 0, 0⟩)]
    else p.nodes
  { p with
      nodes :=
        updKey
          (fun ns => ⟨ns.nodeType, ns.lines + 1, ns.characters + line.length⟩)
          nodes p.current_node }

/-- The `for line in lines` loop of `Parser.parse`: stop at a `select` or
`connectAttr` line, otherwise trim and dispatch on `createNode` /
`setAttr` / continuation-with-current-node / ignore. -/
def parseLoop : List (List Char) → Parser → Except PyError Parser
  | [], p => .ok p
  | line :: rest, p =>
    if startswith selectMarker line then .ok p
    else if startswith connectMarker line then .ok p
    else
      let trimmed := pyTrim line
      if startswith createMarker trimmed then
        match on_create trimmed p with
        | .error e => .error e
        | .ok p2 => parseLoop rest p2
      else if startswith setattrMarker trimmed then
        parseLoop rest (on_setattr trimmed p)
      else if p.current_node.isSome then
        parseLoop rest (on_setattr trimmed p)
      else
        parseLoop rest p

/-- The statistics `Parser.parse` computes: `lineCount` and
`totalCharacterCount` are derived from the whole input before the loop
runs; `nodes` is filled by the loop.  (`fname` and `filesize` are
caller-supplied resource facts with no algorithmic content and are not
modelled.) -/
structure ParseResult where
  lineCount : ℕ
  totalCharacterCount : ℕ
  nodes : NodesMap
deriving DecidableEq

/-- Embeds `Parser.parse` on an already-split line list: reset
`result["nodes"]` (but not the transient `_current_node` /
`_current_node_type` fields, which only `__init__` sets), compute the
whole-file totals up front, then run the classification loop; an exception
from `on_create` propagates. -/
def Parser.parse (p : Parser) (lines : List (List Char)) :
    Except PyError (Parser × ParseResult) :=
  match parseLoop lines { p with nodes := [] } with
  | .error e => .error e
  | .ok p2 => .ok (p2, ⟨lines.length, (lines.map List.length).sum, p2.nodes⟩)

/-- The node name a `createNode` line carries, when `on_create` would
succeed on it (the extracted name does not depend on the parser state). -/
def createdName (line : List Char) : Option (List Char) :=
  match on_create line Parser.init with
  | .error _ => none
  | .ok p => p.current_node

/-- A line at which `Parser.parse`'s classification loop stops: a `select`
or `connectAttr` terminator (tested on the raw, untrimmed line, as in the
source).  The lines the loop actually processes are exactly
`lines.takeWhile (fun l => !isTerminator l)`. -/
def isTerminator (line : List Char) : Bool :=
  startswith selectMarker line || startswith connectMarker line

example : pySplit "createNode transform -n \"a\"".toList =
    ["createNode".toList, "transform".toList, "-n".toList, "\"a\"".toList] := by
  decide

example : pyTrim "  setAttr x; \n".toList = "setAttr x".toList := by decide

/-! ### Helper lemmas: strip layout -/

theorem rowGo_length (x w : ℚ) (l : List ℚ) (y : ℚ) :
    (rowGo x w l y).length = l.length := by
  induction l generalizing y with
  | nil => rfl
  | cons s rest ih => simp [rowGo, ih]

theorem colGo_length (y h : ℚ) (l : List ℚ) (x : ℚ) :
    (colGo y h l x).length = l.length := by
  induction l generalizing x with
  | nil => rfl
  | cons s rest ih => simp [colGo, ih]

theorem layout_length (sizes : List ℚ) (x y dx dy : ℚ) :
    (layout sizes x y dx dy).length = sizes.length := by
  unfold layout layoutrow layoutcol
  split <;> simp [rowGo_length, colGo_length]

theorem rowGo_map_area (x w : ℚ) (hw : w ≠ 0) (l : List ℚ) (y : ℚ) :
    (rowGo x w l y).map Rect.area = l := by
  induction l generalizing y with
  | nil => rfl
  | cons s rest ih =>
    simp only [rowGo, List.map_cons, ih]
    congr 1
    simp [Rect.area]
    rw [mul_comm, div_mul_cancel₀ _ hw]

theorem colGo_map_area (y h : ℚ) (hh : h ≠ 0) (l : List ℚ) (x : ℚ) :
    (colGo y h l x).map Rect.area = l := by
  induction l generalizing x with
  | nil => rfl
  | cons s rest ih =>
    simp only [colGo, List.map_cons, ih]
    congr 1
    simp [Rect.area]
    rw [div_mul_cancel₀ _ hh]

theorem rowGo_mem (x w : ℚ) (hw : 0 < w) (l : List ℚ) (hl : ∀ s ∈ l, 0 < s) :
    ∀ y : ℚ, ∀ r ∈ rowGo x w l y,
      r.x = x ∧ r.dx = w ∧ y ≤ r.y ∧ r.y + r.dy ≤ y + l.sum / w ∧ 0 < r.dy := by
  induction l with
  | nil => intro y r hr; simp [rowGo] at hr
  | cons s rest ih =>
    intro y r hr
    have hs : 0 < s := hl s (by simp)
    have hrest : ∀ t ∈ rest, 0 < t := fun t ht => hl t (by simp [ht])
    have hsum : (0:ℚ) ≤ rest.sum := by
      apply List.sum_nonneg
      intro t ht
      exact (hrest t ht).le
    simp only [rowGo, List.mem_cons] at hr
    rcases hr with hr | hr
    · subst hr
      refine ⟨rfl, rfl, le_refl _, ?_, by positivity⟩
      simp only [List.sum_cons, add_div]
      have : (0:ℚ) ≤ rest.sum / w := by positivity
      linarith
    · obtain ⟨h1, h2, h3, h4, h5⟩ := ih hrest (y + s / w) r hr
      have hsw : (0:ℚ) < s / w := by positivity
      refine ⟨h1, h2, by linarith, ?_, h5⟩
      simp only [List.sum_cons, add_div]
      linarith

theorem colGo_mem (y h : ℚ) (hh : 0 < h) (l : List ℚ) (hl : ∀ s ∈ l, 0 < s) :
    ∀ x : ℚ, ∀ r ∈ colGo y h l x,
      r.y = y ∧ r.dy = h ∧ x ≤ r.x ∧ r.x + r.dx ≤ x + l.sum / h ∧ 0 < r.dx := by
  induction l with
  | nil => intro x r hr; simp [colGo] at hr
  | cons s rest ih =>
    intro x r hr
    have hs : 0 < s := hl s (by simp)
    have hrest : ∀ t ∈ rest, 0 < t := fun t ht => hl t (by simp [ht])
    simp only [colGo, List.mem_cons] at hr
    rcases hr with hr | hr
    · subst hr
      refine ⟨rfl, rfl, le_refl _, ?_, by positivity⟩
      simp only [List.sum_cons, add_div]
      have hsum : (0:ℚ) ≤ rest.sum := by
        apply List.sum_nonneg
        intro t ht
        exact (hrest t ht).le
      have : (0:ℚ) ≤ rest.sum / h := by positivity
      linarith
    · obtain ⟨h1, h2, h3, h4, h5⟩ := ih hrest (x + s / h) r hr
      have hsh : (0:ℚ) < s / h := by positivity
      refine ⟨h1, h2, by linarith, ?_, h5⟩
      simp only [List.sum_cons, add_div]
      linarith

theorem rowGo_pairwise (x w : ℚ) (hw : 0 < w) (l : List ℚ) (hl : ∀ s ∈ l, 0 < s) :
    ∀ y : ℚ, List.Pairwise (fun a b => a.y + a.dy ≤ b.y) (rowGo x w l y) := by
  induction l with
  | nil => intro y; simp [rowGo]
  | cons s rest ih =>
    intro y
    have hrest : ∀ t ∈ rest, 0 < t := fun t ht => hl t (by simp [ht])
    simp only [rowGo]
    constructor
    · intro r hr
      have := (rowGo_mem x w hw rest hrest (y + s / w) r hr).2.2.1
      simpa using this
    · exact ih hrest (y + s / w)

theorem colGo_pairwise (y h : ℚ) (hh : 0 < h) (l : List ℚ) (hl : ∀ s ∈ l, 0 < s) :
    ∀ x : ℚ, List.Pairwise (fun a b => a.x + a.dx ≤ b.x) (colGo y h l x) := by
  induction l with
  | nil => intro x; simp [colGo]
  | cons s rest ih =>
    intro x
    have hrest : ∀ t ∈ rest, 0 < t := fun t ht => hl t (by simp [ht])
    simp only [colGo]
    constructor
    · intro r hr
      have := (colGo_mem y h hh rest hrest (x + s / h) r hr).2.2.1
      simpa using this
    · exact ih hrest (x + s / h)

/-! ### Helper lemmas: split index and squarify recursion -/

theorem splitGo_ge (sizes : List ℚ) (x y dx dy : ℚ) :
    ∀ fuel i, i ≤ splitGo sizes x y dx dy fuel i := by
  intro fuel
  induction fuel with
  | zero => intro i; exact le_refl i
  | succ n ih =>
    intro i
    simp only [splitGo]
    split
    · exact le_trans (Nat.le_succ i) (ih (i + 1))
    · exact le_refl i

theorem splitGo_le (sizes : List ℚ) (x y dx dy : ℚ) :
    ∀ fuel i, i ≤ sizes.length → splitGo sizes x y dx dy fuel i ≤ sizes.length := by
  intro fuel
  induction fuel with
  | zero => intro i h; exact h
  | succ n ih =>
    intro i h
    simp only [splitGo]
    split
    · next hc => exact ih (i + 1) hc.1
    · exact h

theorem splitIdx_pos (sizes : List ℚ) (x y dx dy : ℚ) :
    1 ≤ splitIdx sizes x y dx dy :=
  splitGo_ge sizes x y dx dy sizes.length 1

theorem splitIdx_le (sizes : List ℚ) (x y dx dy : ℚ) (h : 1 ≤ sizes.length) :
    splitIdx sizes x y dx dy ≤ sizes.length :=
  splitGo_le sizes x y dx dy sizes.length 1 h

theorem squarifyGo_nil (fuel : ℕ) (x y dx dy : ℚ) :
    squarifyGo fuel [] x y dx dy = [] := by
  cases fuel <;> rfl

theorem squarifyGo_single (fuel : ℕ) (s x y dx dy : ℚ) :
    squarifyGo fuel [s] x y dx dy = layout [s] x y dx dy := by
  cases fuel <;> rfl

theorem squarifyGo_cons2 (fuel : ℕ) (s1 s2 : ℚ) (rest : List ℚ) (x y dx dy : ℚ) :
    squarifyGo (fuel + 1) (s1 :: s2 :: rest) x y dx dy =
      layout ((s1 :: s2 :: rest).take (splitIdx (s1 :: s2 :: rest) x y dx dy)) x y dx dy ++
        squarifyGo fuel ((s1 :: s2 :: rest).drop (splitIdx (s1 :: s2 :: rest) x y dx dy))
          (leftover ((s1 :: s2 :: rest).take (splitIdx (s1 :: s2 :: rest) x y dx dy)) x y dx dy).x
          (leftover ((s1 :: s2 :: rest).take (splitIdx (s1 :: s2 :: rest) x y dx dy)) x y dx dy).y
          (leftover ((s1 :: s2 :: rest).take (splitIdx (s1 :: s2 :: rest) x y dx dy)) x y dx dy).dx
          (leftover ((s1 :: s2 :: rest).take (splitIdx (s1 :: s2 :: rest) x y dx dy)) x y dx dy).dy := by
  rfl

theorem squarifyGo_fuel (fuel : ℕ) :
    ∀ (sizes : List ℚ) (x y dx dy : ℚ), sizes.length ≤ fuel →
      squarifyGo fuel sizes x y dx dy = squarifyGo sizes.length sizes x y dx dy := by
  induction fuel using Nat.strong_induction_on with
  | _ fuel ih =>
    intro sizes x y dx dy hlen
    match fuel, sizes with
    | _, [] => simp [squarifyGo_nil]
    | _, [s] => simp [squarifyGo_single]
    | fuel + 1, s1 :: s2 :: rest =>
      have hlen2 : (s1 :: s2 :: rest).length = rest.length + 2 := by simp
      set sz := s1 :: s2 :: rest with hsz
      set i := splitIdx sz x y dx dy with hi
      have h1 : 1 ≤ i := splitIdx_pos sz x y dx dy
      have hdrop : (sz.drop i).length ≤ fuel := by
        have := sz.length_drop i
        omega
      have hdrop2 : (sz.drop i).length ≤ rest.length + 1 := by
        have := sz.length_drop i
        omega
      rw [squarifyGo_cons2]
      rw [hlen2, squarifyGo_cons2]
      rw [ih fuel (Nat.lt_succ_self fuel) _ _ _ _ _ hdrop]
      rw [ih (rest.length + 1) (by omega) _ _ _ _ _ hdrop2]

/-- The fuel-based `squarify` satisfies exactly the recursion equation of
the source: empty input gives `[]`, a singleton is laid out directly, and
otherwise the sizes up to the split index form a strip laid out in the
current frame while the rest is laid out recursively in the leftover
frame. -/
theorem squarify_eq (sizes : List ℚ) (x y dx dy : ℚ) :
    squarify sizes x y dx dy =
      if sizes.length = 0 then []
      else if sizes.length = 1 then layout sizes x y dx dy
      else
        layout (sizes.take (splitIdx sizes x y dx dy)) x y dx dy ++
          squarify (sizes.drop (splitIdx sizes x y dx dy))
            (leftover (sizes.take (splitIdx sizes x y dx dy)) x y dx dy).x
            (leftover (sizes.take (splitIdx sizes x y dx dy)) x y dx dy).y
            (leftover (sizes.take (splitIdx sizes x y dx dy)) x y dx dy).dx
            (leftover (sizes.take (splitIdx sizes x y dx dy)) x y dx dy).dy := by
  match sizes with
  | [] => simp [squarify, squarifyGo_nil]
  | [s] => simp [squarify, squarifyGo_single]
  | s1 :: s2 :: rest =>
    simp only [List.length_cons, squarify]
    rw [squarifyGo_cons2]
    set sz := s1 :: s2 :: rest with hsz
    set i := splitIdx sz x y dx dy with hi
    have h1 : 1 ≤ i := splitIdx_pos sz x y dx dy
    have hdrop : (sz.drop i).length ≤ rest.length + 1 := by
      have := sz.length_drop i
      simp only [hsz, List.length_cons] at this ⊢
      omega
    rw [squarifyGo_fuel (rest.length + 1) _ _ _ _ _ hdrop]
    simp

/-! ### Strip-level lemmas -/

theorem layoutrow_strip (l : List ℚ) (x y dx dy : ℚ)
    (hl : l ≠ []) (hpos : ∀ s ∈ l, 0 < s) (hdy : 0 < dy) :
    (layoutrow l x y dx dy).map Rect.area = l ∧
    List.Pairwise Rect.Disjoint (layoutrow l x y dx dy) ∧
    ∀ r ∈ layoutrow l x y dx dy,
      r.x = x ∧ r.dx = l.sum / dy ∧ y ≤ r.y ∧ r.y + r.dy ≤ y + dy ∧ 0 < r.dy := by
  have hc : 0 < l.sum := List.sum_pos l hpos hl
  have hw : 0 < l.sum / dy := by positivity
  have hdiv : l.sum / (l.sum / dy) = dy := by
    field_simp
  refine ⟨rowGo_map_area x (l.sum / dy) hw.ne' l y, ?_, ?_⟩
  · have := rowGo_pairwise x (l.sum / dy) hw l hpos y
    exact this.imp (fun h => Or.inr (Or.inr (Or.inl h)))
  · intro r hr
    have := rowGo_mem x (l.sum / dy) hw l hpos y r hr
    rw [hdiv] at this
    exact this

theorem layoutcol_strip (l : List ℚ) (x y dx dy : ℚ)
    (hl : l ≠ []) (hpos : ∀ s ∈ l, 0 < s) (hdx : 0 < dx) :
    (layoutcol l x y dx dy).map Rect.area = l ∧
    List.Pairwise Rect.Disjoint (layoutcol l x y dx dy) ∧
    ∀ r ∈ layoutcol l x y dx dy,
      r.y = y ∧ r.dy = l.sum / dx ∧ x ≤ r.x ∧ r.x + r.dx ≤ x + dx ∧ 0 < r.dx := by
  have hc : 0 < l.sum := List.sum_pos l hpos hl
  have hh : 0 < l.sum / dx := by positivity
  have hdiv : l.sum / (l.sum / dx) = dx := by
    field_simp
  refine ⟨colGo_map_area y (l.sum / dx) hh.ne' l x, ?_, ?_⟩
  · have := colGo_pairwise y (l.sum / dx) hh l hpos x
    exact this.imp (fun h => Or.inl h)
  · intro r hr
    have := colGo_mem y (l.sum / dx) hh l hpos x r hr
    rw [hdiv] at this
    exact this

theorem layout_strip (l : List ℚ) (x y dx dy : ℚ)
    (hl : l ≠ []) (hpos : ∀ s ∈ l, 0 < s) (hdx : 0 < dx) (hdy : 0 < dy)
    (hle : l.sum ≤ dx * dy) :
    (layout l x y dx dy).map Rect.area = l ∧
    List.Pairwise Rect.Disjoint (layout l x y dx dy) ∧
    ∀ r ∈ layout l x y dx dy,
      Rect.Contained r x y dx dy ∧ 0 < r.dx ∧ 0 < r.dy := by
  unfold layout
  split
  · next h =>
    obtain ⟨ha, hp, hm⟩ := layoutrow_strip l x y dx dy hl hpos hdy
    refine ⟨ha, hp, ?_⟩
    intro r hr
    obtain ⟨h1, h2, h3, h4, h5⟩ := hm r hr
    have hwle : l.sum / dy ≤ dx := by
      rw [div_le_iff₀ hdy]
      exact hle
    have hwpos : 0 < l.sum / dy := by
      have := List.sum_pos l hpos hl
      positivity
    exact ⟨⟨le_of_eq h1.symm, h3, by rw [h1, h2]; linarith, h4⟩,
      by rw [h2]; exact hwpos, h5⟩
  · next h =>
    obtain ⟨ha, hp, hm⟩ := layoutcol_strip l x y dx dy hl hpos hdx
    refine ⟨ha, hp, ?_⟩
    intro r hr
    obtain ⟨h1, h2, h3, h4, h5⟩ := hm r hr
    push_neg at h
    have hhle : l.sum / dx ≤ dy := by
      rw [div_le_iff₀ hdx]
      rw [mul_comm]
      exact hle
    have hhpos : 0 < l.sum / dx := by
      have := List.sum_pos l hpos hl
      positivity
    exact ⟨⟨h3, le_of_eq h1.symm, h4, by rw [h1, h2]; linarith⟩,
      h5, by rw [h2]; exact hhpos⟩

/-! ### Master invariant of the squarify recursion -/

theorem squarifyGo_master :
    ∀ (fuel : ℕ) (sizes : List ℚ) (x y dx dy : ℚ),
      sizes.length ≤ fuel → sizes ≠ [] → (∀ s ∈ sizes, 0 < s) →
      0 < dx → 0 < dy → sizes.sum = dx * dy →
      (squarifyGo fuel sizes x y dx dy).map Rect.area = sizes ∧
      List.Pairwise Rect.Disjoint (squarifyGo fuel sizes x y dx dy) ∧
      ∀ r ∈ squarifyGo fuel sizes x y dx dy,
        Rect.Contained r x y dx dy ∧ 0 < r.dx ∧ 0 < r.dy := by
  intro fuel
  induction fuel with
  | zero =>
    intro sizes x y dx dy hlen hne hpos hdx hdy hsum
    exact absurd (List.eq_nil_of_length_eq_zero (Nat.le_zero.mp hlen)) hne
  | succ fuel ih =>
    intro sizes x y dx dy hlen hne hpos hdx hdy hsum
    rcases sizes with _ | ⟨s1, rest1⟩
    · exact absurd rfl hne
    rcases rest1 with _ | ⟨s2, rest⟩
    · rw [squarifyGo_single]
      exact layout_strip [s1] x y dx dy (by simp) hpos hdx hdy (le_of_eq hsum)
    rw [squarifyGo_cons2]
    set i := splitIdx (s1 :: s2 :: rest) x y dx dy with hidef
    set cur := (s1 :: s2 :: rest).take i with hcurd
    set rem := (s1 :: s2 :: rest).drop i with hremd
    have hi1 : 1 ≤ i := splitIdx_pos _ x y dx dy
    have hile : i ≤ (s1 :: s2 :: rest).length := splitIdx_le _ x y dx dy (by simp)
    have hcurlen : cur.length = i := by
      rw [hcurd, List.length_take]
      exact Nat.min_eq_left hile
    have hcurne : cur ≠ [] := by
      have hp : 0 < cur.length := by omega
      exact List.length_pos.mp hp
    have hposcur : ∀ s ∈ cur, 0 < s := fun s hs => hpos s (List.take_subset _ _ hs)
    have hposrem : ∀ s ∈ rem, 0 < s := fun s hs => hpos s (List.drop_subset _ _ hs)
    have hsplitsum : cur.sum + rem.sum = dx * dy := by
      rw [hcurd, hremd, ← List.sum_append, List.take_append_drop]
      exact hsum
    have hcpos : 0 < cur.sum := List.sum_pos cur hposcur hcurne
    by_cases hremnil : rem = []
    · rw [hremnil, squarifyGo_nil, List.append_nil]
      have hcall : cur = s1 :: s2 :: rest := by
        have h0 := List.take_append_drop i (s1 :: s2 :: rest)
        rw [← hcurd, ← hremd, hremnil, List.append_nil] at h0
        exact h0
      rw [hcall]
      exact layout_strip _ x y dx dy (by simp) hpos hdx hdy (le_of_eq hsum)
    · have hrpos : 0 < rem.sum := List.sum_pos rem hposrem hremnil
      have hclt : cur.sum < dx * dy := by linarith
      have hremfuel : rem.length ≤ fuel := by
        rw [hremd, List.length_drop]
        simp only [List.length_cons] at hlen ⊢
        omega
      have hcurrem : cur ++ rem = s1 :: s2 :: rest := by
        rw [hcurd, hremd]
        exact List.take_append_drop i _
      by_cases hor : dy ≤ dx
      · have hlay : layout cur x y dx dy = layoutrow cur x y dx dy := by
          unfold layout
          rw [if_pos hor]
        have hlo : leftover cur x y dx dy = leftoverrow cur x y dx dy := by
          unfold leftover
          rw [if_pos hor]
        rw [hlay, hlo]
        simp only [leftoverrow]
        set w := cur.sum / dy with hwdef
        have hw : 0 < w := by rw [hwdef]; positivity
        have hwlt : w < dx := by
          rw [hwdef, div_lt_iff₀ hdy]
          exact hclt
        have hwdy : w * dy = cur.sum := by
          rw [hwdef]
          exact div_mul_cancel₀ _ hdy.ne'
        have hremsum : rem.sum = (dx - w) * dy := by nlinarith
        obtain ⟨iha, ihp, ihm⟩ :=
          ih rem (x + w) y (dx - w) dy hremfuel hremnil hposrem
            (by linarith) hdy hremsum
        obtain ⟨sa, sp, sm⟩ := layoutrow_strip cur x y dx dy hcurne hposcur hdy
        refine ⟨?_, ?_, ?_⟩
        · rw [List.map_append, sa, iha]
          exact hcurrem
        · rw [List.pairwise_append]
          refine ⟨sp, ihp, ?_⟩
          intro a ha b hb
          obtain ⟨hax, hadx, _, _, _⟩ := sm a ha
          have hbx : x + w ≤ b.x := (ihm b hb).1.1
          exact Or.inl (by rw [hax, hadx, ← hwdef]; exact hbx)
        · intro r hr
          rcases List.mem_append.mp hr with hr | hr
          · obtain ⟨h1, h2, h3, h4, h5⟩ := sm r hr
            rw [← hwdef] at h2
            exact ⟨⟨le_of_eq h1.symm, h3, by rw [h1, h2]; linarith, h4⟩,
              by rw [h2]; exact hw, h5⟩
          · obtain ⟨⟨c1, c2, c3, c4⟩, cdx, cdy⟩ := ihm r hr
            exact ⟨⟨by linarith, c2, by linarith, c4⟩, cdx, cdy⟩
      · push_neg at hor
        have hlay : layout cur x y dx dy = layoutcol cur x y dx dy := by
          unfold layout
          rw [if_neg (not_le.mpr hor)]
        have hlo : leftover cur x y dx dy = leftovercol cur x y dx dy := by
          unfold leftover
          rw [if_neg (not_le.mpr hor)]
        rw [hlay, hlo]
        simp only [leftovercol]
        set h := cur.sum / dx with hhdef
        have hh : 0 < h := by rw [hhdef]; positivity
        have hhlt : h < dy := by
          rw [hhdef, div_lt_iff₀ hdx]
          nlinarith
        have hhdx : h * dx = cur.sum := by
          rw [hhdef]
          exact div_mul_cancel₀ _ hdx.ne'
        have hremsum : rem.sum = dx * (dy - h) := by nlinarith
        obtain ⟨iha, ihp, ihm⟩ :=
          ih rem x (y + h) dx (dy - h) hremfuel hremnil hposrem
            hdx (by linarith) hremsum
        obtain ⟨sa, sp, sm⟩ := layoutcol_strip cur x y dx dy hcurne hposcur hdx
        refine ⟨?_, ?_, ?_⟩
        · rw [List.map_append, sa, iha]
          exact hcurrem
        · rw [List.pairwise_append]
          refine ⟨sp, ihp, ?_⟩
          intro a ha b hb
          obtain ⟨hay, hady, _, _, _⟩ := sm a ha
          have hby : y + h ≤ b.y := (ihm b hb).1.2.1
          exact Or.inr (Or.inr (Or.inl (by rw [hay, hady, ← hhdef]; exact hby)))
        · intro r hr
          rcases List.mem_append.mp hr with hr | hr
          · obtain ⟨h1, h2, h3, h4, h5⟩ := sm r hr
            rw [← hhdef] at h2
            exact ⟨⟨h3, le_of_eq h1.symm, h4, by rw [h1, h2]; linarith⟩,
              h5, by rw [h2]; exact hh⟩
          · obtain ⟨⟨c1, c2, c3, c4⟩, cdx, cdy⟩ := ihm r hr
            exact ⟨⟨c1, by linarith, c3, by linarith⟩, cdx, cdy⟩

/-! ### Length and orientation helpers -/

theorem squarifyGo_length :
    ∀ (fuel : ℕ) (sizes : List ℚ) (x y dx dy : ℚ), sizes.length ≤ fuel →
      (squarifyGo fuel sizes x y dx dy).length = sizes.length := by
  intro fuel
  induction fuel with
  | zero =>
    intro sizes x y dx dy hlen
    rw [List.eq_nil_of_length_eq_zero (Nat.le_zero.mp hlen)]
    simp [squarifyGo_nil]
  | succ fuel ih =>
    intro sizes x y dx dy hlen
    rcases sizes with _ | ⟨s1, rest1⟩
    · simp [squarifyGo_nil]
    rcases rest1 with _ | ⟨s2, rest⟩
    · rw [squarifyGo_single, layout_length]
    rw [squarifyGo_cons2]
    set i := splitIdx (s1 :: s2 :: rest) x y dx dy with hidef
    have hi1 : 1 ≤ i := splitIdx_pos _ x y dx dy
    have hile : i ≤ (s1 :: s2 :: rest).length := splitIdx_le _ x y dx dy (by simp)
    have hdroplen : ((s1 :: s2 :: rest).drop i).length ≤ fuel := by
      rw [List.length_drop]
      simp only [List.length_cons] at hlen ⊢
      omega
    rw [List.length_append, layout_length, ih _ _ _ _ _ hdroplen,
      List.length_take, List.length_drop]
    simp only [List.length_cons] at hile ⊢
    omega

theorem rowGo_fixed (x w : ℚ) :
    ∀ (l : List ℚ) (y : ℚ), ∀ r ∈ rowGo x w l y, r.x = x ∧ r.dx = w := by
  intro l
  induction l with
  | nil => intro y r hr; simp [rowGo] at hr
  | cons s rest ih =>
    intro y r hr
    simp only [rowGo, List.mem_cons] at hr
    rcases hr with hr | hr
    · subst hr; exact ⟨rfl, rfl⟩
    · exact ih (y + s / w) r hr

theorem colGo_fixed (y h : ℚ) :
    ∀ (l : List ℚ) (x : ℚ), ∀ r ∈ colGo y h l x, r.y = y ∧ r.dy = h := by
  intro l
  induction l with
  | nil => intro x r hr; simp [colGo] at hr
  | cons s rest ih =>
    intro x r hr
    simp only [colGo, List.mem_cons] at hr
    rcases hr with hr | hr
    · subst hr; exact ⟨rfl, rfl⟩
    · exact ih (x + s / h) r hr

theorem rowGo_chain (x w : ℚ) :
    ∀ (l : List ℚ) (y : ℚ),
      List.Chain' (fun a b => b.x = a.x ∧ b.y = a.y + a.dy) (rowGo x w l y) := by
  intro l
  induction l with
  | nil => intro y; simp [rowGo]
  | cons s rest ih =>
    intro y
    cases rest with
    | nil => simp [rowGo]
    | cons t ts =>
      simp only [rowGo]
      exact List.Chain'.cons ⟨rfl, rfl⟩ (ih (y + s / w))

theorem colGo_chain (y h : ℚ) :
    ∀ (l : List ℚ) (x : ℚ),
      List.Chain' (fun a b => b.y = a.y ∧ b.x = a.x + a.dx) (colGo y h l x) := by
  intro l
  induction l with
  | nil => intro x; simp [colGo]
  | cons s rest ih =>
    intro x
    cases rest with
    | nil => simp [colGo]
    | cons t ts =>
      simp only [colGo]
      exact List.Chain'.cons ⟨rfl, rfl⟩ (ih (x + s / h))

/-! ### Parser helper lemmas -/

theorem findKey_updKey_self (f : NodeStats → NodeStats) :
    ∀ (nodes : NodesMap) (key : Option (List Char)),
      findKey (updKey f nodes key) key = (findKey nodes key).map f := by
  intro nodes key
  induction nodes with
  | nil => rfl
  | cons kv rest ih =>
    obtain ⟨k, v⟩ := kv
    by_cases hk : k = key
    · simp [updKey, findKey, hk]
    · simp [updKey, findKey, hk, ih]

theorem findKey_append_of_none (v : NodeStats) :
    ∀ (nodes : NodesMap) (key : Option (List Char)),
      findKey nodes key = none →
      findKey (nodes ++ [(key, v)]) key = some v := by
  intro nodes key
  induction nodes with
  | nil => intro _; simp [findKey]
  | cons kv rest ih =>
    intro h
    obtain ⟨k, v0⟩ := kv
    simp only [findKey] at h
    by_cases hk : k = key
    · rw [if_pos hk] at h
      exact absurd h (by simp)
    · rw [if_neg hk] at h
      simp only [List.cons_append, findKey, if_neg hk]
      exact ih h

theorem updKey_map_fst (f : NodeStats → NodeStats) :
    ∀ (nodes : NodesMap) (key : Option (List Char)),
      (updKey f nodes key).map Prod.fst = nodes.map Prod.fst := by
  intro nodes key
  induction nodes with
  | nil => rfl
  | cons kv rest ih =>
    obtain ⟨k, v⟩ := kv
    by_cases hk : k = key
    · simp [updKey, hk]
    · simp [updKey, hk, ih]

theorem on_setattr_fields (line : List Char) (p : Parser) :
    (on_setattr line p).current_node = p.current_node ∧
    (on_setattr line p).current_node_type = p.current_node_type :=
  ⟨rfl, rfl⟩

theorem on_setattr_map_fst (line : List Char) (p : Parser) :
    ∀ k ∈ (on_setattr line p).nodes.map Prod.fst,
      k ∈ p.nodes.map Prod.fst ∨ k = p.current_node := by
  intro k hk
  unfold on_setattr at hk
  simp only [updKey_map_fst] at hk
  by_cases hf : (findKey p.nodes p.current_node).isNone
  · rw [if_pos hf] at hk
    simp only [List.map_append, List.map_cons, List.map_nil, List.mem_append,
      List.mem_cons, List.not_mem_nil, or_false] at hk
    exact hk
  · rw [if_neg hf] at hk
    exact Or.inl hk

theorem on_setattr_find (line : List Char) (p : Parser) :
    findKey (on_setattr line p).nodes p.current_node =
      some (match findKey p.nodes p.current_node with
        | none => ⟨p.current_node_type, 1, line.length⟩
        | some ns => ⟨ns.nodeType, ns.lines + 1, ns.characters + line.length⟩) := by
  unfold on_setattr
  cases hf : findKey p.nodes p.current_node with
  | none =>
    simp only [hf, Option.isNone_none, if_pos]
    rw [findKey_updKey_self, findKey_append_of_none _ _ _ hf]
    simp
  | some ns =>
    simp only [hf, Option.isNone_some, Bool.false_eq_true, if_false]
    rw [findKey_updKey_self, hf]
    simp

theorem on_create_spec (line : List Char) (p p2 : Parser)
    (h : on_create line p = .ok p2) :
    p2.nodes = p.nodes ∧ createdName line = p2.current_node ∧
      p2.current_node.isSome = true := by
  unfold createdName
  unfold on_create at h ⊢
  dsimp only at h ⊢
  rcases hidx : pyIndex nFlag (pySplit line) with _ | index <;> rw [hidx] at h <;>
    dsimp only at h ⊢
  · exact Except.noConfusion h
  · rcases ht : (pySplit line)[1]? with _ | node_type <;> rw [ht] at h <;>
      dsimp only at h ⊢
    · exact Except.noConfusion h
    · rcases hn : (pySplit line)[index + 1]? with _ | name <;> rw [hn] at h <;>
        dsimp only at h ⊢
      · exact Except.noConfusion h
      · injection h with h
        subst h
        simp

theorem parseLoop_provenance :
    ∀ (lines : List (List Char)) (p p2 : Parser),
      parseLoop lines p = .ok p2 →
      (∀ k ∈ p2.nodes.map Prod.fst,
        k ∈ p.nodes.map Prod.fst ∨ k = p.current_node ∨
          ∃ line ∈ lines.takeWhile (fun l => !isTerminator l),
            startswith createMarker (pyTrim line) = true ∧
            createdName (pyTrim line) = k) ∧
      (p2.current_node = p.current_node ∨
        ∃ line ∈ lines.takeWhile (fun l => !isTerminator l),
          startswith createMarker (pyTrim line) = true ∧
          createdName (pyTrim line) = p2.current_node) := by
  intro lines
  induction lines with
  | nil =>
    intro p p2 h
    simp only [parseLoop, Except.ok.injEq] at h
    subst h
    exact ⟨fun k hk => Or.inl hk, Or.inl rfl⟩
  | cons line rest ih =>
    intro p p2 h
    simp only [parseLoop] at h
    by_cases hsel : startswith selectMarker line = true
    · rw [if_pos hsel] at h
      simp only [Except.ok.injEq] at h
      subst h
      exact ⟨fun k hk => Or.inl hk, Or.inl rfl⟩
    · rw [if_neg hsel] at h
      by_cases hcon : startswith connectMarker line = true
      · rw [if_pos hcon] at h
        simp only [Except.ok.injEq] at h
        subst h
        exact ⟨fun k hk => Or.inl hk, Or.inl rfl⟩
      · rw [if_neg hcon] at h
        have htw : (line :: rest).takeWhile (fun l => !isTerminator l) =
            line :: rest.takeWhile (fun l => !isTerminator l) := by
          simp [List.takeWhile_cons, isTerminator, hsel, hcon]
        by_cases hcr : startswith createMarker (pyTrim line) = true
        · rw [if_pos hcr] at h
          cases hoc : on_create (pyTrim line) p with
          | error e => rw [hoc] at h; exact Except.noConfusion h
          | ok pc =>
            rw [hoc] at h
            obtain ⟨hnodes, hname, _⟩ := on_create_spec (pyTrim line) p pc hoc
            obtain ⟨ihk, ihc⟩ := ih pc p2 h
            constructor
            · intro k hk
              rcases ihk k hk with hk2 | hk2 | hk2
              · rw [hnodes] at hk2
                exact Or.inl hk2
              · exact Or.inr (Or.inr ⟨line,
                  by rw [htw]; exact List.mem_cons_self _ _,
                  hcr, by rw [hname, hk2]⟩)
              · obtain ⟨l, hl, hc⟩ := hk2
                exact Or.inr (Or.inr ⟨l,
                  by rw [htw]; exact List.mem_cons_of_mem _ hl, hc⟩)
            · rcases ihc with hc | hc
              · exact Or.inr ⟨line,
                  by rw [htw]; exact List.mem_cons_self _ _,
                  hcr, by rw [hname, hc]⟩
              · obtain ⟨l, hl, hcc⟩ := hc
                exact Or.inr ⟨l,
                  by rw [htw]; exact List.mem_cons_of_mem _ hl, hcc⟩
        · rw [if_neg hcr] at h
          by_cases hsa : startswith setattrMarker (pyTrim line) = true
          · rw [if_pos hsa] at h
            obtain ⟨ihk, ihc⟩ := ih _ p2 h
            constructor
            · intro k hk
              rcases ihk k hk with hk2 | hk2 | hk2
              · rcases on_setattr_map_fst (pyTrim line) p k hk2 with h3 | h3
                · exact Or.inl h3
                · exact Or.inr (Or.inl h3)
              · exact Or.inr (Or.inl (hk2.trans
                  (on_setattr_fields (pyTrim line) p).1))
              · obtain ⟨l, hl, hc⟩ := hk2
                exact Or.inr (Or.inr ⟨l,
                  by rw [htw]; exact List.mem_cons_of_mem _ hl, hc⟩)
            · rcases ihc with hc | hc
              · exact Or.inl (hc.trans (on_setattr_fields (pyTrim line) p).1)
              · obtain ⟨l, hl, hcc⟩ := hc
                exact Or.inr ⟨l,
                  by rw [htw]; exact List.mem_cons_of_mem _ hl, hcc⟩
          · rw [if_neg hsa] at h
            by_cases hcur : p.current_node.isSome = true
            · rw [if_pos hcur] at h
              obtain ⟨ihk, ihc⟩ := ih _ p2 h
              constructor
              · intro k hk
                rcases ihk k hk with hk2 | hk2 | hk2
                · rcases on_setattr_map_fst (pyTrim line) p k hk2 with h3 | h3
                  · exact Or.inl h3
                  · exact Or.inr (Or.inl h3)
                · exact Or.inr (Or.inl (hk2.trans
                    (on_setattr_fields (pyTrim line) p).1))
                · obtain ⟨l, hl, hc⟩ := hk2
                  exact Or.inr (Or.inr ⟨l,
                    by rw [htw]; exact List.mem_cons_of_mem _ hl, hc⟩)
              · rcases ihc with hc | hc
                · exact Or.inl (hc.trans (on_setattr_fields (pyTrim line) p).1)
                · obtain ⟨l, hl, hcc⟩ := hc
                  exact Or.inr ⟨l,
                    by rw [htw]; exact List.mem_cons_of_mem _ hl, hcc⟩
            · rw [if_neg hcur] at h
              obtain ⟨ihk, ihc⟩ := ih p p2 h
              constructor
              · intro k hk
                rcases ihk k hk with hk2 | hk2 | hk2
                · exact Or.inl hk2
                · exact Or.inr (Or.inl hk2)
                · obtain ⟨l, hl, hc⟩ := hk2
                  exact Or.inr (Or.inr ⟨l,
                    by rw [htw]; exact List.mem_cons_of_mem _ hl, hc⟩)
              · rcases ihc with hc | hc
                · exact Or.inl hc
                · obtain ⟨l, hl, hcc⟩ := hc
                  exact Or.inr ⟨l,
                    by rw [htw]; exact List.mem_cons_of_mem _ hl, hcc⟩

/-! ### Claim theorems -/

/-- C1: for every non-empty sequence of positive weights whose sum equals
`dx * dy`, the rectangles returned by `squarify` for the bounding rectangle
`(x, y, dx, dy)` are pairwise non-overlapping, their areas sum to exactly
`dx * dy`, and each lies inside the bounding rectangle (so they tile it
exactly, before padding). -/
theorem squarify_tiling (sizes : List ℚ) (x y dx dy : ℚ)
    (hne : sizes ≠ []) (hpos : ∀ s ∈ sizes, 0 < s)
    (hdx : 0 < dx) (hdy : 0 < dy) (hsum : sizes.sum = dx * dy) :
    List.Pairwise Rect.Disjoint (squarify sizes x y dx dy) ∧
    ((squarify sizes x y dx dy).map Rect.area).sum = dx * dy ∧
    ∀ r ∈ squarify sizes x y dx dy, Rect.Contained r x y dx dy := by
  obtain ⟨ha, hp, hm⟩ :=
    squarifyGo_master sizes.length sizes x y dx dy (le_refl _) hne hpos hdx hdy hsum
  refine ⟨hp, ?_, fun r hr => (hm r hr).1⟩
  unfold squarify
  rw [ha]
  exact hsum

/-- Witness for C1 at the concrete input `[1, 1, 2]` in the square
`(0, 0, 2, 2)`. -/
theorem squarify_tiling_witness :
    List.Pairwise Rect.Disjoint (squarify [1, 1, 2] 0 0 2 2) ∧
    ((squarify [1, 1, 2] 0 0 2 2).map Rect.area).sum = 2 * 2 ∧
    ∀ r ∈ squarify [1, 1, 2] 0 0 2 2, Rect.Contained r 0 0 2 2 :=
  squarify_tiling [1, 1, 2] 0 0 2 2 (by decide) (by decide)
    (by norm_num) (by norm_num) (by norm_num)

/-- C8: `squarify` returns the empty sequence on empty input, always
returns as many rectangles as weights, and (for positive weights
pre-normalized to the bounding area) the i-th rectangle has area equal to
the i-th weight, so the output is order-preserving. -/
theorem squarify_order (sizes : List ℚ) (x y dx dy : ℚ) :
    squarify ([] : List ℚ) x y dx dy = [] ∧
    (squarify sizes x y dx dy).length = sizes.length ∧
    (sizes ≠ [] → (∀ s ∈ sizes, 0 < s) → 0 < dx → 0 < dy →
      sizes.sum = dx * dy →
      (squarify sizes x y dx dy).map Rect.area = sizes) := by
  refine ⟨rfl, squarifyGo_length sizes.length sizes x y dx dy (le_refl _), ?_⟩
  intro hne hpos hdx hdy hsum
  exact (squarifyGo_master sizes.length sizes x y dx dy (le_refl _)
    hne hpos hdx hdy hsum).1

/-- Witness for C8 at the concrete input `[1, 1, 2]` in `(0, 0, 2, 2)`. -/
theorem squarify_order_witness :
    squarify ([] : List ℚ) 0 0 3 1 = [] ∧
    (squarify [1, 1, 2] 0 0 2 2).length = ([1, 1, 2] : List ℚ).length ∧
    (squarify [1, 1, 2] 0 0 2 2).map Rect.area = [1, 1, 2] :=
  ⟨(squarify_order [] 0 0 3 1).1,
   (squarify_order [1, 1, 2] 0 0 2 2).2.1,
   (squarify_order [1, 1, 2] 0 0 2 2).2.2 (by decide) (by decide)
     (by norm_num) (by norm_num) (by norm_num)⟩

/-- C2 counterexample: at `layout [1, 1] 0 0 2 1` the remaining rectangle
has `dx = 2 ≥ dy = 1`, and the spec's claimed row layout would give every
rectangle the fixed height `covered_area / dx = 1` at the top edge
(`y = 0`), placed left-to-right; the code instead produces a strip of
fixed *width* 2 with heights `1/2`, stacked top-to-bottom. -/
theorem layout_orientation_cex :
    ((1 : ℚ) ≤ 2) ∧
    layout [1, 1] 0 0 2 1 = [⟨0, 0, 2, 1/2⟩, ⟨0, 1/2, 2, 1/2⟩] ∧
    ([1, 1] : List ℚ).sum / 2 = 1 ∧
    ¬ (∀ r ∈ layout [1, 1] 0 0 2 1, r.dy = 1 ∧ r.y = 0) := by
  have hl : layout [1, 1] 0 0 2 1 = [⟨0, 0, 2, 1/2⟩, ⟨0, 1/2, 2, 1/2⟩] := by
    norm_num [layout, layoutrow, rowGo]
  refine ⟨by norm_num, hl, by simp, ?_⟩
  intro h
  have h2 := (h ⟨0, 1/2, 2, 1/2⟩ (by rw [hl]; simp)).1
  norm_num at h2

/-- C2 (amended): when `dx ≥ dy` the strip is laid out by `layoutrow`,
whose rectangles all have fixed *width* equal to the strip thickness
`covered_area / dy` and are stacked top-to-bottom (each rectangle starts
where the previous one ends in `y`, at the same `x`); when `dx < dy` the
strip is laid out by `layoutcol`, whose rectangles all have fixed *height*
`covered_area / dx` and are placed left-to-right. -/
theorem layout_orientation (sizes : List ℚ) (x y dx dy : ℚ) :
    (dy ≤ dx → layout sizes x y dx dy = layoutrow sizes x y dx dy) ∧
    (dx < dy → layout sizes x y dx dy = layoutcol sizes x y dx dy) ∧
    (∀ r ∈ layoutrow sizes x y dx dy, r.x = x ∧ r.dx = sizes.sum / dy) ∧
    List.Chain' (fun a b => b.x = a.x ∧ b.y = a.y + a.dy)
      (layoutrow sizes x y dx dy) ∧
    (∀ r ∈ layoutcol sizes x y dx dy, r.y = y ∧ r.dy = sizes.sum / dx) ∧
    List.Chain' (fun a b => b.y = a.y ∧ b.x = a.x + a.dx)
      (layoutcol sizes x y dx dy) := by
  refine ⟨?_, ?_, ?_, rowGo_chain x (sizes.sum / dy) sizes y, ?_,
    colGo_chain y (sizes.sum / dx) sizes x⟩
  · intro h
    unfold layout
    rw [if_pos h]
  · intro h
    unfold layout
    rw [if_neg (not_le.mpr h)]
  · exact rowGo_fixed x (sizes.sum / dy) sizes y
  · exact colGo_fixed y (sizes.sum / dx) sizes x

/-- Witness for C2 (amended) at `sizes = [1, 1]`, frame `(0, 0, 2, 1)`. -/
theorem layout_orientation_witness :
    layout [1, 1] 0 0 2 1 = layoutrow [1, 1] 0 0 2 1 ∧
    ∀ r ∈ layoutrow [1, 1] 0 0 2 1, r.x = 0 ∧ r.dx = ([1, 1] : List ℚ).sum / 1 :=
  ⟨(layout_orientation [1, 1] 0 0 2 1).1 (by norm_num),
   (layout_orientation [1, 1] 0 0 2 1).2.2.1⟩

/-- C7: for a non-empty list of non-negative weights with positive maximum
(and positive floor ratio), `normalize_sizes` first floors every weight to
at least `max(sizes) * minimum_size`, then rescales the floored weights
proportionally, and the results sum to exactly `dx * dy`. -/
theorem normalize_sizes_spec (sizes : List ℚ) (dx dy ms : ℚ)
    (hne : sizes ≠ []) (hnn : ∀ s ∈ sizes, 0 ≤ s)
    (hmax : 0 < pyMax sizes) (hms : 0 < ms) :
    (∀ s ∈ sizes.map (fun t => max t (pyMax sizes * ms)),
      pyMax sizes * ms ≤ s) ∧
    normalize_sizes sizes dx dy ms =
      (sizes.map (fun t => max t (pyMax sizes * ms))).map
        (fun t => t * (dx * dy) / (sizes.map (fun u => max u (pyMax sizes * ms))).sum) ∧
    (normalize_sizes sizes dx dy ms).sum = dx * dy := by
  set minsize := pyMax sizes * ms with hminsize
  set floored := sizes.map (fun t => max t minsize) with hfloored
  have hmpos : 0 < minsize := by positivity
  have hfpos : ∀ t ∈ floored, 0 < t := by
    intro t ht
    rw [hfloored] at ht
    obtain ⟨u, _, hu⟩ := List.mem_map.mp ht
    have := le_max_right u minsize
    rw [hu] at this
    linarith
  have hfne : floored ≠ [] := by
    rw [hfloored]
    simpa using hne
  have hT : 0 < floored.sum := List.sum_pos floored hfpos hfne
  refine ⟨?_, rfl, ?_⟩
  · intro s hs
    obtain ⟨u, _, hu⟩ := List.mem_map.mp hs
    rw [← hu]
    exact le_max_right u minsize
  · show ((floored.map (fun s => s * (dx * dy) / floored.sum))).sum = dx * dy
    have hrw : floored.map (fun s => s * (dx * dy) / floored.sum) =
        floored.map (fun s => s * ((dx * dy) / floored.sum)) := by
      apply List.map_congr_left
      intro a _
      rw [mul_div_assoc]
    rw [hrw, List.sum_map_mul_right]
    simp only [List.map_id']
    rw [mul_comm]
    exact div_mul_cancel₀ _ hT.ne'

/-- Witness for C7 at `sizes = [100, 1/10000]`, target `10 × 10`, ratio
`1/100`: the floor is `1` and the second weight is raised to it before the
rescaled weights sum to `100`. -/
theorem normalize_sizes_spec_witness :
    (1 : ℚ) ≤ max (1/10000) (pyMax [100, 1/10000] * (1/100)) ∧
    (normalize_sizes [100, 1/10000] 10 10 (1/100)).sum = 10 * 10 :=
  ⟨by norm_num [pyMax],
   (normalize_sizes_spec [100, 1/10000] 10 10 (1/100) (by simp)
      (by norm_num) (by norm_num [pyMax]) (by norm_num)).2.2⟩

/-- C10 counterexample: the caller-supplied list passed to
`normalize_sizes` is *not* left unchanged — the flooring loop writes into
it in place; for `[100, 1/10000]` with ratio `1/100` the list afterwards
holds `[100, 1]`. -/
theorem normalize_sizes_mutates_cex :
    normalize_sizes_arg_after [100, 1/10000] (1/100) = [100, 1] ∧
    normalize_sizes_arg_after [100, 1/10000] (1/100) ≠ [100, 1/10000] := by
  constructor
  · norm_num [normalize_sizes_arg_after, pyMax]
  · norm_num [normalize_sizes_arg_after, pyMax]

/-- C10 (amended): `parse`, `squarify` and `padded_squarify` are pure, but
`normalize_sizes` mutates its argument in place: the caller-supplied list
is unchanged after the call exactly when every weight already lies at or
above the floor `max(sizes) * minimum_size`. -/
theorem normalize_sizes_mutation (sizes : List ℚ) (ms : ℚ) :
    normalize_sizes_arg_after sizes ms = sizes ↔
      ∀ s ∈ sizes, pyMax sizes * ms ≤ s := by
  unfold normalize_sizes_arg_after
  generalize pyMax sizes * ms = c
  induction sizes with
  | nil => simp
  | cons s rest ih =>
    simp only [List.map_cons, List.cons.injEq, List.mem_cons]
    rw [ih, max_eq_left_iff]
    constructor
    · rintro ⟨h1, h2⟩ t ht
      rcases ht with rfl | ht
      · exact h1
      · exact h2 t ht
    · intro h
      exact ⟨h s (Or.inl rfl), fun t ht => h t (Or.inr ht)⟩

/-- Witness for C10 (amended): a list already above the floor is left
unchanged. -/
theorem normalize_sizes_mutation_witness :
    normalize_sizes_arg_after [3, 2] (1/2) = [3, 2] :=
  (normalize_sizes_mutation [3, 2] (1/2)).mpr (by norm_num [pyMax])

/-- C3 counterexample: for the input `createNode transform -n "a"` followed
by `setAttr x;`, the attributed `characters` count is 9 — the length of the
*trimmed* line `setAttr x` — not 10, the length of the original untrimmed
line `setAttr x;`. -/
theorem parse_charcount_cex :
    Parser.parse Parser.init
        ["createNode transform -n \"a\"".toList, "setAttr x;".toList] =
      .ok (⟨some "a".toList, some "transform".toList,
            [(some "a".toList, ⟨some "transform".toList, 1, 9⟩)]⟩,
           ⟨2, 37, [(some "a".toList, ⟨some "transform".toList, 1, 9⟩)]⟩) ∧
    ("setAttr x;".toList).length = 10 ∧ (9 : ℕ) ≠ 10 :=
  ⟨rfl, rfl, by decide⟩

/-- C3 (amended): every attribute-setting or continuation line attributed
to the current object increments the object's `lines` by 1 and its
`characters` by the length of the line *after* trimming (`strip()` then
`rstrip(" ;\n")`), creating the entry seeded with the current type and zero
counts on first attribution. -/
theorem parse_attribution (line : List Char) (rest : List (List Char)) (p : Parser)
    (h1 : startswith selectMarker line = false)
    (h2 : startswith connectMarker line = false)
    (h3 : startswith createMarker (pyTrim line) = false)
    (h4 : startswith setattrMarker (pyTrim line) = true ∨
      p.current_node.isSome = true) :
    parseLoop (line :: rest) p = parseLoop rest (on_setattr (pyTrim line) p) ∧
    findKey (on_setattr (pyTrim line) p).nodes p.current_node =
      some (match findKey p.nodes p.current_node with
        | none => ⟨p.current_node_type, 1, (pyTrim line).length⟩
        | some ns =>
          ⟨ns.nodeType, ns.lines + 1, ns.characters + (pyTrim line).length⟩) := by
  refine ⟨?_, on_setattr_find (pyTrim line) p⟩
  simp only [parseLoop, h1, h2, h3, Bool.false_eq_true, if_false]
  rcases h4 with h4 | h4
  · rw [if_pos h4]
  · by_cases hs : startswith setattrMarker (pyTrim line) = true
    · rw [if_pos hs]
    · rw [if_neg hs, if_pos h4]

/-- Witness for C3 (amended) at the line `setAttr x;` with current object
`a` of type `transform` and no existing entry. -/
theorem parse_attribution_witness :
    parseLoop ["setAttr x;".toList]
        (⟨some "a".toList, some "transform".toList, []⟩ : Parser) =
      parseLoop [] (on_setattr (pyTrim "setAttr x;".toList)
        (⟨some "a".toList, some "transform".toList, []⟩ : Parser)) ∧
    findKey (on_setattr (pyTrim "setAttr x;".toList)
        (⟨some "a".toList, some "transform".toList, []⟩ : Parser)).nodes
      (⟨some "a".toList, some "transform".toList, []⟩ : Parser).current_node =
      some (match findKey (⟨some "a".toList, some "transform".toList,
          []⟩ : Parser).nodes
          (⟨some "a".toList, some "transform".toList, []⟩ : Parser).current_node with
        | none =>
          ⟨(⟨some "a".toList, some "transform".toList,
            []⟩ : Parser).current_node_type, 1,
            (pyTrim "setAttr x;".toList).length⟩
        | some ns =>
          ⟨ns.nodeType, ns.lines + 1,
            ns.characters + (pyTrim "setAttr x;".toList).length⟩) :=
  parse_attribution "setAttr x;".toList [] _
    (by decide) (by decide) (by decide) (Or.inl (by decide))

/-- C4 counterexample: a second `parse` call on the same parser instance
does not start from absent transient state — after parsing
`createNode transform -n "a"`, parsing the single line `foo` attributes it
to the stale object `a`, while a fresh parser leaves `foo` unattributed; the
two calls return different `ParsedStats` for the same input. -/
theorem parse_no_reset_cex :
    Parser.parse Parser.init ["createNode transform -n \"a\"".toList] =
      .ok (⟨some "a".toList, some "transform".toList, []⟩, ⟨1, 27, []⟩) ∧
    Parser.parse (⟨some "a".toList, some "transform".toList, []⟩ : Parser)
        ["foo".toList] =
      .ok (⟨some "a".toList, some "transform".toList,
            [(some "a".toList, ⟨some "transform".toList, 1, 3⟩)]⟩,
           ⟨1, 3, [(some "a".toList, ⟨some "transform".toList, 1, 3⟩)]⟩) ∧
    Parser.parse Parser.init ["foo".toList] = .ok (Parser.init, ⟨1, 3, []⟩) ∧
    (⟨1, 3, [(some "a".toList, ⟨some "transform".toList, 1, 3⟩)]⟩ : ParseResult) ≠
      (⟨1, 3, []⟩ : ParseResult) :=
  ⟨rfl, rfl, rfl, by decide⟩

/-- C4 (amended): the transient fields `current_object` / `current_type`
are set to absent at parser *construction*, not at the start of each parse
call; a `parse` call's outcome depends only on the input lines and those
two incoming fields (the previous `nodes` result is reset), so two parsers
with equal transient fields — in particular two fresh parsers — produce
identical results, but earlier parse calls on the same instance can change
the outcome. -/
theorem parse_state_reset_amended :
    Parser.init.current_node = none ∧ Parser.init.current_node_type = none ∧
    ∀ (p q : Parser) (lines : List (List Char)),
      p.current_node = q.current_node →
      p.current_node_type = q.current_node_type →
      Parser.parse p lines = Parser.parse q lines := by
  refine ⟨rfl, rfl, ?_⟩
  intro p q lines h1 h2
  have hpq : ({ p with nodes := [] } : Parser) = { q with nodes := [] } := by
    cases p
    cases q
    simp_all
  unfold Parser.parse
  rw [hpq]

/-- Witness for C4 (amended): a parser with stale `nodes` but absent
transient fields parses like a fresh parser. -/
theorem parse_state_reset_witness :
    Parser.parse (⟨none, none, [(none, ⟨none, 5, 7⟩)]⟩ : Parser) ["ab".toList] =
      Parser.parse Parser.init ["ab".toList] :=
  parse_state_reset_amended.2.2 _ _ _ rfl rfl

/-- C5: whenever `parse` returns a result, its `lineCount` is the number of
input lines and its `totalCharacterCount` is the sum of all line lengths,
computed over the whole input regardless of any terminator line (only
per-object attribution stops early). -/
theorem parse_totals (lines : List (List Char)) (p p2 : Parser) (r : ParseResult)
    (h : Parser.parse p lines = .ok (p2, r)) :
    r.lineCount = lines.length ∧
    r.totalCharacterCount = (lines.map List.length).sum := by
  unfold Parser.parse at h
  cases hl : parseLoop lines { p with nodes := [] } with
  | error e => rw [hl] at h; exact Except.noConfusion h
  | ok q =>
    rw [hl] at h
    simp only [Except.ok.injEq, Prod.mk.injEq] at h
    obtain ⟨h1, h2⟩ := h
    subst h2
    exact ⟨rfl, rfl⟩

/-- Witness for C5 with a terminator in the middle of the input: the line
`select` stops attribution at line 1 of 2, yet the totals cover both
lines. -/
theorem parse_totals_witness :
    (⟨2, 8, []⟩ : ParseResult).lineCount =
      (["select".toList, "ab".toList] : List (List Char)).length ∧
    (⟨2, 8, []⟩ : ParseResult).totalCharacterCount =
      ((["select".toList, "ab".toList] : List (List Char)).map List.length).sum :=
  parse_totals ["select".toList, "ab".toList] Parser.init Parser.init
    ⟨2, 8, []⟩ rfl

/-- C6 counterexample: two failures of the claim at concrete inputs.
First, an attribute-setting line seen before any creation statement *does*
create an entry — under the absent key `None` — so a key can exist that no
creation statement introduced.  Second, for the input that repeats
`createNode transform -n "a"` at lines 1 and 3 (with `setAttr` lines in
between, no terminator anywhere), the key `a` is present while *two*
creation-marker statements before the first terminator carry that name, so
"exactly one" fails as well. -/
theorem parse_none_key_cex :
    (Parser.parse Parser.init ["setAttr x".toList] =
      .ok (⟨none, none, [(none, ⟨none, 1, 9⟩)]⟩,
           ⟨1, 9, [(none, ⟨none, 1, 9⟩)]⟩) ∧
     ((none : Option (List Char)), (⟨none, 1, 9⟩ : NodeStats)) ∈
       ([(none, ⟨none, 1, 9⟩)] : NodesMap)) ∧
    (Parser.parse Parser.init
        ["createNode transform -n \"a\"".toList, "setAttr x;".toList,
         "createNode transform -n \"a\"".toList, "setAttr y;".toList] =
      .ok (⟨some "a".toList, some "transform".toList,
            [(some "a".toList, ⟨some "transform".toList, 2, 18⟩)]⟩,
           ⟨4, 74, [(some "a".toList, ⟨some "transform".toList, 2, 18⟩)]⟩) ∧
     (["createNode transform -n \"a\"".toList, "setAttr x;".toList,
       "createNode transform -n \"a\"".toList, "setAttr y;".toList] :
         List (List Char)).takeWhile (fun l => !isTerminator l) =
       ["createNode transform -n \"a\"".toList, "setAttr x;".toList,
        "createNode transform -n \"a\"".toList, "setAttr y;".toList] ∧
     ((["createNode transform -n \"a\"".toList, "setAttr x;".toList,
        "createNode transform -n \"a\"".toList, "setAttr y;".toList] :
          List (List Char)).filter
        (fun l => startswith createMarker (pyTrim l))).length = 2 ∧
     createdName (pyTrim "createNode transform -n \"a\"".toList) =
       some "a".toList) :=
  ⟨⟨rfl, by simp⟩, rfl, rfl, rfl, rfl⟩

/-- C6 (amended): after a `parse` call on a fresh parser, every key of the
objects mapping is either the absent marker `None` (created when an
attribute/continuation line is seen with no current object) or a name
introduced by a creation-marker statement encountered *before the first
terminator* — at least one such statement; uniqueness can fail, as the
counterexample's duplicate-`createNode` input shows. -/
theorem parse_keys_provenance (lines : List (List Char)) (p2 : Parser)
    (r : ParseResult) (h : Parser.parse Parser.init lines = .ok (p2, r)) :
    ∀ k ∈ r.nodes.map Prod.fst,
      k = none ∨ ∃ line ∈ lines.takeWhile (fun l => !isTerminator l),
        startswith createMarker (pyTrim line) = true ∧
        createdName (pyTrim line) = k := by
  unfold Parser.parse at h
  cases hl : parseLoop lines { Parser.init with nodes := [] } with
  | error e => rw [hl] at h; exact Except.noConfusion h
  | ok q =>
    rw [hl] at h
    simp only [Except.ok.injEq, Prod.mk.injEq] at h
    obtain ⟨h1, h2⟩ := h
    subst h2
    intro k hk
    obtain ⟨ihk, _⟩ :=
      parseLoop_provenance lines { Parser.init with nodes := [] } q hl
    rcases ihk k hk with hk2 | hk2 | hk2
    · simp [Parser.init] at hk2
    · exact Or.inl hk2
    · exact Or.inr hk2

/-- Witness for C6 (amended): for `createNode transform -n "b"` followed
by `setAttr x`, the key `b` comes from a creation statement in the
pre-terminator region of the input. -/
theorem parse_keys_provenance_witness :
    some "b".toList = (none : Option (List Char)) ∨
    ∃ line ∈ (["createNode transform -n \"b\"".toList,
        "setAttr x".toList] : List (List Char)).takeWhile
          (fun l => !isTerminator l),
      startswith createMarker (pyTrim line) = true ∧
      createdName (pyTrim line) = some "b".toList :=
  parse_keys_provenance
    ["createNode transform -n \"b\"".toList, "setAttr x".toList]
    ⟨some "b".toList, some "transform".toList,
      [(some "b".toList, ⟨some "transform".toList, 1, 9⟩)]⟩
    ⟨2, 36, [(some "b".toList, ⟨some "transform".toList, 1, 9⟩)]⟩ rfl
    (some "b".toList) (by simp)

/-- C9: on a `createNode` line with no `-n` flag the parser does *not* fail
with a `MalformedStatement` error carrying the line content and number — it
propagates a bare `ValueError` from `comp.index("-n")` (and a bare
`IndexError` for missing type/name tokens), confirming that the guard the
spec mandates is absent from the code. -/
theorem on_create_unguarded :
    Parser.parse Parser.init ["createNode transform".toList] =
      .error .valueError ∧
    Parser.parse Parser.init ["createNode -n".toList] = .error .indexError :=
  ⟨rfl, rfl⟩
